import Mathlib

/-!
# Verification of the route-index core (treap + trie) of the weather-app repository

This file embeds the data structures of `traveltreap.py` — the `Treap`
(randomized binary search tree over route strings), the `Trie`
(character trie used for autocomplete) and the `LocationGraph`
composition layer — and proves/refutes the frozen specification claims
about them.

Python strings are modelled as lists of characters (`Str`), which is
exactly the sequence of code points a Python `str` denotes:
* Python's `<` on strings is code-point-wise lexicographic comparison,
  which is the `<` of the lexicographic order on `List Char`;
* `s.startswith(p)` is `p.isPrefixOf s`;
* `s.lower()` is character-wise lowering, `s.map Char.toLower`;
* f-string concatenation is list append.

Python `dict`s (the trie children maps) are modelled as association
lists in insertion order: lookup finds the first entry with the key,
updating an existing key keeps its position, and adding a fresh key
appends at the end — exactly the observable behaviour of a Python dict
that never deletes keys.

The random priority drawn by `random.randint(1, 100)` at node creation
is modelled by passing the drawn value as an explicit argument, so all
theorems quantify over arbitrary sequences of priority draws.
-/

/-- Model of a Python string: its sequence of characters. -/
abbrev Str : Type := List Char

/-- Converts a Lean string literal into its character-list model. -/
def str (s : String) : Str := s.data

/-- Model of Python's `s.lower()`: character-wise lowering. -/
def lower (s : Str) : Str := s.map Char.toLower

/-! ## The Treap (`class TreapNode` / `class Treap`)

A `TreapNode` holds `location`, a random `priority`, and `left`/`right`
children which may be `None`.  We model the whole (sub)tree: `leaf`
stands for Python's `None`, and `node` carries the fields of a
`TreapNode` in source order. -/

/-- A treap node (`class TreapNode`) or the absent tree `None`. -/
inductive Treap : Type where
  | leaf : Treap
  | node (location : Str) (priority : Nat) (left right : Treap) : Treap
deriving DecidableEq

namespace Treap

/-- `root.priority` for a possibly absent node; `leaf` (Python `None`)
has no priority, `0` is a neutral placeholder never read on `None` by
the source. -/
def priority : Treap → Nat
  | .leaf => 0
  | .node _ p _ _ => p

/-- `root.location`; placeholder `[]` on `leaf`, never read there by the
source. -/
def location : Treap → Str
  | .leaf => []
  | .node k _ _ _ => k

/-- `Treap.rotateRight`: promotes the left child.  The source reads
`root.left.right`, so it is only ever called with a present left child
(as in `insert`); on any other shape we return the input unchanged
(the Python code would raise there, and never does). -/
def rotateRight : Treap → Treap
  | .node k p (.node lk lp ll lr) r => .node lk lp ll (.node k p lr r)
  | t => t

/-- `Treap.rotateLeft`: promotes the right child (same caveat as
`rotateRight`). -/
def rotateLeft : Treap → Treap
  | .node k p l (.node rk rp rl rr) => .node rk rp (.node k p l rl) rr
  | t => t

/-- `Treap.insert(root, location)`: BST descent (`location < root.location`
goes left, otherwise right), new node created with the drawn priority
`prio` at the insertion point, and a rotation on the way back up when
the modified child's priority exceeds the current node's. -/
def insert (root : Treap) (loc : Str) (prio : Nat) : Treap :=
  match root with
  | .leaf => .node loc prio .leaf .leaf
  | .node k p l r =>
    if loc < k then
      let l' := l.insert loc prio
      if l'.priority > p then (Treap.node k p l' r).rotateRight
      else Treap.node k p l' r
    else
      let r' := r.insert loc prio
      if r'.priority > p then (Treap.node k p l r').rotateLeft
      else Treap.node k p l r'

/-- `Treap.search(root, prefix)`: collect the node's key when it starts
with the prefix, then descend into exactly one child, chosen by
lexicographic comparison of the prefix with the key. -/
def search (root : Treap) (pfx : Str) : List Str :=
  match root with
  | .leaf => []
  | .node k _ l r =>
    let results := if pfx.isPrefixOf k then [k] else []
    if pfx < k then results ++ l.search pfx
    else results ++ r.search pfx

/-- `Treap.searchPrefix(prefix)`: starts `search` at the root. -/
def searchPrefix (t : Treap) (pfx : Str) : List Str := t.search pfx

/-- `Treap.insertNode(location)`: replaces the root by the result of
`insert`, with the priority drawn for the new node passed explicitly. -/
def insertNode (t : Treap) (loc : Str) (prio : Nat) : Treap := t.insert loc prio

/-- Repeated `insertNode` over a list of `(location, priority draw)`. -/
def insertList (t : Treap) : List (Str × Nat) → Treap
  | [] => t
  | e :: es => (t.insertNode e.1 e.2).insertList es

/-- In-order traversal of the treap's keys. -/
def inorder : Treap → List Str
  | .leaf => []
  | .node k _ l r => l.inorder ++ k :: r.inorder

/-- Left child of a treap node (`leaf` for Python `None`). -/
def left : Treap → Treap
  | .leaf => .leaf
  | .node _ _ l _ => l

/-- Right child of a treap node (`leaf` for Python `None`). -/
def right : Treap → Treap
  | .leaf => .leaf
  | .node _ _ _ r => r

/-- BST order invariant: keys in the left subtree are at most the node's
key, keys in the right subtree are at least the node's key.  (Insertion
sends an equal key to the right branch, but a later rotation can move an
equal key to the left branch, so the left bound cannot be strict.) -/
def IsBST : Treap → Prop
  | .leaf => True
  | .node k _ l r =>
      (∀ x ∈ l.inorder, x ≤ k) ∧ (∀ x ∈ r.inorder, k ≤ x) ∧ l.IsBST ∧ r.IsBST

/-- Max-heap invariant on priorities: each node's priority is at least
the priorities of its children. -/
def IsHeap : Treap → Prop
  | .leaf => True
  | .node _ p l r => l.priority ≤ p ∧ r.priority ≤ p ∧ l.IsHeap ∧ r.IsHeap

/-- The prefix-descent recursion exactly as the spec words it: at each
node, append the key when it starts with the prefix, then recurse into
the left subtree alone when `prefix < node.key` and into the right
subtree alone otherwise. -/
def searchPrefixSpec : Treap → Str → List Str
  | .leaf, _ => []
  | .node k _ l r, pfx =>
      (if pfx.isPrefixOf k then [k] else []) ++
      (if pfx < k then searchPrefixSpec l pfx else searchPrefixSpec r pfx)

end Treap

/-! ## The Trie (`class TrieNode` / `class Trie`)

`TrieNode.children` is a Python dict from characters to child nodes,
modelled as an insertion-ordered association list. -/

/-- A trie node (`class TrieNode`): insertion-ordered children map and
the `is_end_of_word` flag. -/
inductive TrieNode : Type where
  | mk (children : List (Char × TrieNode)) ( is_end_of_word : Bool) : TrieNode

namespace TrieNode

/-- The children association list of a node. -/
def children : TrieNode → List (Char × TrieNode)
  | .mk cs _ => cs

/-- The `is_end_of_word` flag of a node. -/
def terminal : TrieNode → Bool
  | .mk _ e => e

/-- `TrieNode()`: fresh node, empty dict, flag `False`. -/
def empty : TrieNode := .mk [] false

end TrieNode

/-- Dict lookup `children[char]` (with `char in children` check): first
entry with the given key. -/
def lookupChild (c : Char) : List (Char × TrieNode) → Option TrieNode
  | [] => none
  | e :: rest => if e.1 = c then some e.2 else lookupChild c rest

/-- Dict update `children[char] = node` for a key already present:
replaces the value of the first entry with that key, in place. -/
def updateChild (c : Char) (t : TrieNode) :
    List (Char × TrieNode) → List (Char × TrieNode)
  | [] => []
  | e :: rest => if e.1 = c then (e.1, t) :: rest else e :: updateChild c t rest

namespace TrieNode

/-- The loop of `Trie.insert` on an already lower-cased word: walk the
characters, creating missing children (a fresh dict key appends at the
end), and set `is_end_of_word` on the final node. -/
def insertW : TrieNode → Str → TrieNode
  | .mk cs _, [] => .mk cs true
  | .mk cs e, c :: w =>
    match lookupChild c cs with
    | some child => .mk (updateChild c (child.insertW w) cs) e
    | none => .mk (cs ++ [(c, TrieNode.empty.insertW w)]) e

/-- `Trie.insert(word)`: lower-cases the word, then walks/creates the
path and marks the end. -/
def insert (t : TrieNode) (word : Str) : TrieNode := t.insertW (lower word)

/-- The walking loop of `Trie.search`: follow the (already lower-cased)
prefix character by character; `none` models the early `return []`. -/
def walk : TrieNode → Str → Option TrieNode
  | t, [] => some t
  | t, c :: w =>
    match lookupChild c t.children with
    | some child => child.walk w
    | none => none

end TrieNode

mutual

/-- `Trie.findWords(node, prefix)`: the node's word first (when
terminal), then the children's words in dict insertion order. -/
def findWords : TrieNode → Str → List Str
  | .mk cs e, pfx => (if e then [pfx] else []) ++ findWordsOver cs pfx

/-- The `for char, child in node.children.items()` loop of
`Trie.findWords`, accumulating `words` left to right. -/
def findWordsOver : List (Char × TrieNode) → Str → List Str
  | [], _ => []
  | (c, child) :: rest, pfx =>
      findWords child (pfx ++ [c]) ++ findWordsOver rest pfx

end

namespace TrieNode

/-- `Trie.search(prefix)`: lower-case the prefix, walk it (any missing
character returns `[]` at once), then collect all words below. -/
def search (t : TrieNode) (pfx : Str) : List Str :=
  match t.walk (lower pfx) with
  | none => []
  | some n => findWords n (lower pfx)

/-- Repeated `Trie.insert` over a list of words. -/
def insertAll (t : TrieNode) (ws : List Str) : TrieNode :=
  ws.foldl TrieNode.insert t

end TrieNode

/-! ## The composition layer (`class LocationGraph`) -/

/-- `class LocationGraph`: the ordered route list, the treap and the
trie. -/
structure LocationGraph : Type where
  locations : List Str
  treap : Treap
  trie : TrieNode

namespace LocationGraph

/-- `LocationGraph()`: empty list, empty treap (`root = None`), trie
with a fresh root node. -/
def empty : LocationGraph := ⟨[], .leaf, .mk [] false⟩

/-- `LocationGraph.addLocations(newLocations)` where
`newLocations = (newLocations[0], newLocations[1])`: builds
`f"{newLocations[0]} -> {newLocations[1]}"`, inserts it into the treap
(with the drawn priority passed explicitly) and into the trie, and
appends it to `self.locations`.  The second component of the result is
the Python return value of the method: the method body has no `return`
statement, so it is `none` (Python `None`). -/
def addLocations (g : LocationGraph) (newLocations : Str × Str) (prio : Nat) :
    LocationGraph × Option Str :=
  let combinedLocation := newLocations.1 ++ str " -> " ++ newLocations.2
  (⟨g.locations ++ [combinedLocation],
    g.treap.insertNode combinedLocation prio,
    g.trie.insert combinedLocation⟩,
   none)

/-- `LocationGraph.searchLocations(prefix)`: treap prefix search. -/
def searchLocations (g : LocationGraph) (pfx : Str) : List Str :=
  Treap.searchPrefix g.treap pfx

/-- `LocationGraph.autocomplete(prefix)`: trie search. -/
def autocomplete (g : LocationGraph) (pfx : Str) : List Str :=
  g.trie.search pfx

/-- Repeated `addLocations` over `((departure, arrival), priority draw)`
events, as driven by the UI's submit handler. -/
def addAll (g : LocationGraph) : List ((Str × Str) × Nat) → LocationGraph
  | [] => g
  | e :: es => (g.addLocations e.1 e.2).1.addAll es

end LocationGraph

/-- Model of Python's `s.strip()`: drop whitespace from both ends
(used by the UI layer to validate inputs before `addLocations`). -/
def strip (s : Str) : Str :=
  ((s.dropWhile Char.isWhitespace).reverse.dropWhile Char.isWhitespace).reverse

namespace TrieNode

/-- Membership of an (already lower-cased) word in the trie: walk the
word's characters and check the final `is_end_of_word` flag. -/
def containsW : TrieNode → Str → Bool
  | t, [] => t.terminal
  | t, c :: w =>
    match lookupChild c t.children with
    | some child => child.containsW w
    | none => false

/-- Well-formedness of a trie node as produced by the source: the
children map has one entry per character (a Python dict cannot repeat a
key), recursively. -/
inductive WF : TrieNode → Prop where
  | mk : ∀ (cs : List (Char × TrieNode)) (e : Bool),
      (cs.map Prod.fst).Nodup → (∀ p ∈ cs, WF p.2) → WF (.mk cs e)

end TrieNode

/-! ## Treap invariants -/

namespace Treap

@[simp] theorem priority_leaf : (Treap.leaf).priority = 0 := rfl

@[simp] theorem priority_node (k : Str) (p : Nat) (l r : Treap) :
    (Treap.node k p l r).priority = p := rfl

@[simp] theorem left_node (k : Str) (p : Nat) (l r : Treap) :
    (Treap.node k p l r).left = l := rfl

@[simp] theorem right_node (k : Str) (p : Nat) (l r : Treap) :
    (Treap.node k p l r).right = r := rfl

theorem inorder_rotateRight : ∀ t : Treap, t.rotateRight.inorder = t.inorder
  | .leaf => rfl
  | .node _ _ .leaf _ => rfl
  | .node _ _ (.node _ _ _ _) _ => by
      simp [rotateRight, inorder, List.append_assoc]

theorem inorder_rotateLeft : ∀ t : Treap, t.rotateLeft.inorder = t.inorder
  | .leaf => rfl
  | .node _ _ _ .leaf => rfl
  | .node _ _ _ (.node _ _ _ _) => by
      simp [rotateLeft, inorder, List.append_assoc]

theorem IsBST_rotateRight : ∀ t : Treap, t.IsBST → t.rotateRight.IsBST
  | .leaf, h => h
  | .node _ _ .leaf _, h => h
  | .node k p (.node lk lp ll lr) r, h => by
      obtain ⟨hl, hr, ⟨hll, hlr, hllb, hlrb⟩, hrb⟩ := h
      simp only [inorder, List.mem_append, List.mem_cons] at hl
      have hlk : lk ≤ k := hl lk (Or.inr (Or.inl rfl))
      refine ⟨hll, ?_, hllb, ?_, hr, hlrb, hrb⟩
      · intro x hx
        simp only [inorder, List.mem_append, List.mem_cons] at hx
        rcases hx with hx | hx | hx
        · exact hlr x hx
        · exact hx ▸ hlk
        · exact le_trans hlk (hr x hx)
      · intro x hx
        exact hl x (Or.inr (Or.inr hx))

theorem IsBST_rotateLeft : ∀ t : Treap, t.IsBST → t.rotateLeft.IsBST
  | .leaf, h => h
  | .node _ _ _ .leaf, h => h
  | .node k p l (.node rk rp rl rr), h => by
      obtain ⟨hl, hr, hlb, ⟨hrl, hrr, hrlb, hrrb⟩⟩ := h
      simp only [inorder, List.mem_append, List.mem_cons] at hr
      have hrk : k ≤ rk := hr rk (Or.inr (Or.inl rfl))
      refine ⟨?_, hrr, ⟨hl, ?_, hlb, hrlb⟩, hrrb⟩
      · intro x hx
        simp only [inorder, List.mem_append, List.mem_cons] at hx
        rcases hx with hx | hx | hx
        · exact le_trans (hl x hx) hrk
        · exact hx ▸ hrk
        · exact hrl x hx
      · intro x hx
        exact hr x (Or.inl hx)

theorem mem_inorder_insert {x loc : Str} {prio : Nat} :
    ∀ t : Treap, x ∈ (t.insert loc prio).inorder → x ∈ t.inorder ∨ x = loc := by
  intro t
  induction t with
  | leaf =>
      intro hx
      simp only [insert, inorder, List.nil_append, List.mem_singleton] at hx
      exact Or.inr hx
  | node k p l r ihl ihr =>
      intro hx
      simp only [insert] at hx
      by_cases hlt : loc < k
      · rw [if_pos hlt] at hx
        split at hx <;>
          [rw [inorder_rotateRight] at hx; skip] <;>
        · simp only [inorder, List.mem_append, List.mem_cons] at hx ⊢
          rcases hx with hx | hx | hx
          · rcases ihl hx with h | h
            · exact Or.inl (Or.inl h)
            · exact Or.inr h
          · exact Or.inl (Or.inr (Or.inl hx))
          · exact Or.inl (Or.inr (Or.inr hx))
      · rw [if_neg hlt] at hx
        split at hx <;>
          [rw [inorder_rotateLeft] at hx; skip] <;>
        · simp only [inorder, List.mem_append, List.mem_cons] at hx ⊢
          rcases hx with hx | hx | hx
          · exact Or.inl (Or.inl hx)
          · exact Or.inl (Or.inr (Or.inl hx))
          · rcases ihr hx with h | h
            · exact Or.inl (Or.inr (Or.inr h))
            · exact Or.inr h

theorem IsBST_insert (loc : Str) (prio : Nat) :
    ∀ t : Treap, t.IsBST → (t.insert loc prio).IsBST := by
  intro t
  induction t with
  | leaf =>
      intro _
      exact ⟨by simp [inorder], by simp [inorder], trivial, trivial⟩
  | node k p l r ihl ihr =>
      intro hb
      obtain ⟨hl, hr, hlb, hrb⟩ := hb
      simp only [insert]
      by_cases hlt : loc < k
      · rw [if_pos hlt]
        have hbound : ∀ x ∈ (l.insert loc prio).inorder, x ≤ k := by
          intro x hx
          rcases mem_inorder_insert l hx with h | h
          · exact hl x h
          · exact h ▸ le_of_lt hlt
        have : (Treap.node k p (l.insert loc prio) r).IsBST :=
          ⟨hbound, hr, ihl hlb, hrb⟩
        split
        · exact IsBST_rotateRight _ this
        · exact this
      · rw [if_neg hlt]
        have hbound : ∀ x ∈ (r.insert loc prio).inorder, k ≤ x := by
          intro x hx
          rcases mem_inorder_insert r hx with h | h
          · exact hr x h
          · exact h ▸ not_lt.mp hlt
        have : (Treap.node k p l (r.insert loc prio)).IsBST :=
          ⟨hl, hbound, hlb, ihr hrb⟩
        split
        · exact IsBST_rotateLeft _ this
        · exact this

theorem IsBST_sorted : ∀ t : Treap, t.IsBST → t.inorder.Sorted (· ≤ ·) := by
  intro t
  induction t with
  | leaf => intro _; exact List.sorted_nil
  | node k p l r ihl ihr =>
      intro hb
      obtain ⟨hl, hr, hlb, hrb⟩ := hb
      simp only [inorder, List.Sorted, List.pairwise_append, List.pairwise_cons]
      refine ⟨ihl hlb, ⟨hr, ihr hrb⟩, ?_⟩
      intro a ha b hb
      simp only [List.mem_cons] at hb
      rcases hb with hb | hb
      · exact hb ▸ hl a ha
      · exact le_trans (hl a ha) (hr b hb)

/-- Key step for the heap invariant: inserting with priority draw `prio`
keeps the heap property, and the new root either keeps the old root's
priority or is the freshly inserted node (priority `prio`), in which
case both its children stay below the old root's priority. -/
theorem IsHeap_insert (loc : Str) (prio : Nat) :
    ∀ t : Treap, t.IsHeap →
      (t.insert loc prio).IsHeap ∧
      ((t.insert loc prio).priority = t.priority ∨
       ((t.insert loc prio).priority = prio ∧
        (t.insert loc prio).left.priority ≤ t.priority ∧
        (t.insert loc prio).right.priority ≤ t.priority)) := by
  intro t
  induction t with
  | leaf =>
      intro _
      exact ⟨⟨Nat.zero_le _, Nat.zero_le _, trivial, trivial⟩,
        Or.inr ⟨rfl, Nat.le_refl 0, Nat.le_refl 0⟩⟩
  | node k p l r ihl ihr =>
      rintro ⟨hpl, hpr, hhl, hhr⟩
      simp only [insert]
      by_cases hlt : loc < k
      · obtain ⟨ih1, ih2⟩ := ihl hhl
        rw [if_pos hlt]
        by_cases hp : (l.insert loc prio).priority > p
        · rw [if_pos hp]
          rcases hl' : l.insert loc prio with _ | ⟨lk, lp, la, lb⟩
          · rw [hl'] at hp
            exact absurd hp (Nat.not_lt_zero p)
          · rw [hl'] at ih1 ih2 hp
            simp only [priority_node] at hp
            simp only [priority_node, left_node, right_node] at ih2
            obtain ⟨ha, hb, hha, hhb⟩ := ih1
            rcases ih2 with h | ⟨h1, h2, h3⟩
            · rw [h] at hp
              exact absurd hpl (not_le.mpr hp)
            · exact ⟨⟨ha, le_of_lt hp, hha, le_trans h3 hpl, hpr, hhb, hhr⟩,
                Or.inr ⟨h1, le_trans h2 hpl, le_refl p⟩⟩
        · rw [if_neg hp]
          exact ⟨⟨not_lt.mp hp, hpr, ih1, hhr⟩, Or.inl rfl⟩
      · obtain ⟨ih1, ih2⟩ := ihr hhr
        rw [if_neg hlt]
        by_cases hp : (r.insert loc prio).priority > p
        · rw [if_pos hp]
          rcases hr' : r.insert loc prio with _ | ⟨rk, rp, ra, rb⟩
          · rw [hr'] at hp
            exact absurd hp (Nat.not_lt_zero p)
          · rw [hr'] at ih1 ih2 hp
            simp only [priority_node] at hp
            simp only [priority_node, left_node, right_node] at ih2
            obtain ⟨ha, hb, hha, hhb⟩ := ih1
            rcases ih2 with h | ⟨h1, h2, h3⟩
            · rw [h] at hp
              exact absurd hpr (not_le.mpr hp)
            · exact ⟨⟨le_of_lt hp, hb, ⟨hpl, le_trans h2 hpr, hhl, hha⟩, hhb⟩,
                Or.inr ⟨h1, le_refl p, le_trans h3 hpr⟩⟩
        · rw [if_neg hp]
          exact ⟨⟨hpl, not_lt.mp hp, hhl, ih1⟩, Or.inl rfl⟩

theorem IsHeap_insertList : ∀ (es : List (Str × Nat)) (t : Treap),
    t.IsHeap → (t.insertList es).IsHeap := by
  intro es
  induction es with
  | nil => intro t h; exact h
  | cons e es ih =>
      intro t h
      exact ih _ (IsHeap_insert e.1 e.2 t h).1

theorem IsBST_insertList : ∀ (es : List (Str × Nat)) (t : Treap),
    t.IsBST → (t.insertList es).IsBST := by
  intro es
  induction es with
  | nil => intro t h; exact h
  | cons e es ih =>
      intro t h
      exact ih _ (IsBST_insert e.1 e.2 t h)

theorem search_eq_spec : ∀ (t : Treap) (pfx : Str),
    t.search pfx = searchPrefixSpec t pfx := by
  intro t
  induction t with
  | leaf => intro pfx; rfl
  | node k p l r ihl ihr =>
      intro pfx
      by_cases h : pfx < k
      · simp only [search, searchPrefixSpec, if_pos h, ihl]
      · simp only [search, searchPrefixSpec, if_neg h, ihr]

theorem search_eq_nil_of_no_match : ∀ (t : Treap) (pfx : Str),
    (∀ k ∈ t.inorder, pfx.isPrefixOf k = false) → t.search pfx = [] := by
  intro t
  induction t with
  | leaf => intro _ _; rfl
  | node k p l r ihl ihr =>
      intro pfx h
      have hk : pfx.isPrefixOf k = false :=
        h k (List.mem_append.mpr (Or.inr (List.mem_cons_self k _)))
      have hl : ∀ x ∈ l.inorder, pfx.isPrefixOf x = false :=
        fun x hx => h x (List.mem_append.mpr (Or.inl hx))
      have hr : ∀ x ∈ r.inorder, pfx.isPrefixOf x = false :=
        fun x hx => h x (List.mem_append.mpr (Or.inr (List.mem_cons_of_mem k hx)))
      by_cases hlt : pfx < k
      · simp only [search, hk, if_pos hlt, ihl pfx hl]
        simp
      · simp only [search, hk, if_neg hlt, ihr pfx hr]
        simp


end Treap

/-! ## Trie lemmas -/

namespace TrieNode

@[simp] theorem children_mk (cs : List (Char × TrieNode)) (e : Bool) :
    (TrieNode.mk cs e).children = cs := rfl

@[simp] theorem terminal_mk (cs : List (Char × TrieNode)) (e : Bool) :
    (TrieNode.mk cs e).terminal = e := rfl

/-- Structural induction for the nested inductive `TrieNode`. -/
theorem inductionOn {motive : TrieNode → Prop}
    (h : ∀ (cs : List (Char × TrieNode)) (e : Bool),
      (∀ p ∈ cs, motive p.2) → motive (.mk cs e)) :
    ∀ n, motive n
  | .mk cs e => h cs e fun p hp => inductionOn h p.2
termination_by n => sizeOf n
decreasing_by
  have h1 := List.sizeOf_lt_of_mem hp
  obtain ⟨c, t⟩ := p
  simp only [Prod.mk.sizeOf_spec] at h1
  simp only [TrieNode.mk.sizeOf_spec]
  omega

end TrieNode

theorem lookupChild_eq_none_iff (c : Char) :
    ∀ cs : List (Char × TrieNode),
      lookupChild c cs = none ↔ c ∉ cs.map Prod.fst := by
  intro cs
  induction cs with
  | nil => simp [lookupChild]
  | cons e rest ih =>
      by_cases h : e.1 = c
      · simp [lookupChild, h]
      · simp [lookupChild, h, ih, Ne.symm h]

theorem mem_of_lookupChild {c : Char} {t : TrieNode} :
    ∀ cs : List (Char × TrieNode), lookupChild c cs = some t → (c, t) ∈ cs := by
  intro cs
  induction cs with
  | nil => intro h; exact absurd h (by simp [lookupChild])
  | cons e rest ih =>
      intro h
      rw [lookupChild] at h
      by_cases he : e.1 = c
      · rw [if_pos he] at h
        have h2 : e.2 = t := by injection h
        obtain ⟨c1, t1⟩ := e
        simp only at he h2
        subst he
        subst h2
        exact List.mem_cons_self _ _
      · rw [if_neg he] at h
        exact List.mem_cons_of_mem _ (ih h)

theorem lookupChild_updateChild_self (c : Char) (x : TrieNode) :
    ∀ cs : List (Char × TrieNode), (lookupChild c cs).isSome →
      lookupChild c (updateChild c x cs) = some x := by
  intro cs
  induction cs with
  | nil => intro h; simp [lookupChild] at h
  | cons e rest ih =>
      intro h
      by_cases he : e.1 = c
      · simp [updateChild, lookupChild, he]
      · rw [lookupChild, if_neg he] at h
        simp only [updateChild, if_neg he]
        rw [lookupChild, if_neg he]
        exact ih h

theorem lookupChild_updateChild_ne {d c : Char} (hne : d ≠ c) (x : TrieNode) :
    ∀ cs : List (Char × TrieNode),
      lookupChild d (updateChild c x cs) = lookupChild d cs := by
  intro cs
  induction cs with
  | nil => rfl
  | cons e rest ih =>
      by_cases he : e.1 = c
      · have hed : ¬ e.1 = d := fun h => hne (h ▸ he ▸ rfl)
        have hcd : ¬ c = d := fun h => hne h.symm
        simp [updateChild, lookupChild, he, hed, hcd]
      · simp only [updateChild, if_neg he, lookupChild, ih]

theorem lookupChild_append_self (c : Char) (t : TrieNode) :
    ∀ cs : List (Char × TrieNode), lookupChild c cs = none →
      lookupChild c (cs ++ [(c, t)]) = some t := by
  intro cs
  induction cs with
  | nil => intro _; simp [lookupChild]
  | cons e rest ih =>
      intro h
      rw [lookupChild] at h
      by_cases he : e.1 = c
      · rw [if_pos he] at h; exact absurd h (by simp)
      · rw [if_neg he] at h
        simp only [List.cons_append, lookupChild, if_neg he]
        exact ih h

theorem lookupChild_append_ne {d c : Char} (hne : d ≠ c) (t : TrieNode) :
    ∀ cs : List (Char × TrieNode),
      lookupChild d (cs ++ [(c, t)]) = lookupChild d cs := by
  intro cs
  have hcd : ¬ c = d := fun h => hne h.symm
  induction cs with
  | nil => simp [lookupChild, hcd]
  | cons e rest ih =>
      by_cases he : e.1 = d
      · simp [lookupChild, he]
      · simp only [List.cons_append, lookupChild, if_neg he, List.append_eq, ih]

theorem updateChild_keys (c : Char) (x : TrieNode) :
    ∀ cs : List (Char × TrieNode),
      (updateChild c x cs).map Prod.fst = cs.map Prod.fst := by
  intro cs
  induction cs with
  | nil => rfl
  | cons e rest ih =>
      by_cases he : e.1 = c
      · simp [updateChild, he]
      · simp [updateChild, he, ih]

theorem mem_updateChild {c : Char} {x : TrieNode} {q : Char × TrieNode} :
    ∀ cs : List (Char × TrieNode), q ∈ updateChild c x cs →
      q.2 = x ∨ q ∈ cs := by
  intro cs
  induction cs with
  | nil => intro h; simp [updateChild] at h
  | cons e rest ih =>
      intro h
      by_cases he : e.1 = c
      · rw [updateChild, if_pos he] at h
        rcases List.mem_cons.mp h with h | h
        · exact Or.inl (by rw [h])
        · exact Or.inr (List.mem_cons_of_mem _ h)
      · rw [updateChild, if_neg he] at h
        rcases List.mem_cons.mp h with h | h
        · exact Or.inr (h ▸ List.mem_cons_self _ _)
        · rcases ih h with h2 | h2
          · exact Or.inl h2
          · exact Or.inr (List.mem_cons_of_mem _ h2)

theorem updateChild_of_lookupChild_eq (c : Char) :
    ∀ (cs : List (Char × TrieNode)) (v : TrieNode),
      lookupChild c cs = some v → updateChild c v cs = cs := by
  intro cs
  induction cs with
  | nil => intro v h; simp [lookupChild] at h
  | cons e rest ih =>
      intro v h
      rw [lookupChild] at h
      by_cases he : e.1 = c
      · rw [if_pos he] at h
        have h2 : e.2 = v := by injection h
        rw [updateChild, if_pos he, ← h2]
      · rw [if_neg he] at h
        rw [updateChild, if_neg he, ih v h]

namespace TrieNode

@[simp] theorem containsW_nil (cs : List (Char × TrieNode)) (e : Bool) :
    (TrieNode.mk cs e).containsW [] = e := rfl

theorem containsW_cons_some {cs : List (Char × TrieNode)} {e : Bool} {c : Char}
    {child : TrieNode} (hl : lookupChild c cs = some child) (w : Str) :
    (TrieNode.mk cs e).containsW (c :: w) = child.containsW w := by
  rw [containsW, children_mk, hl]

theorem containsW_cons_none {cs : List (Char × TrieNode)} {e : Bool} {c : Char}
    (hl : lookupChild c cs = none) (w : Str) :
    (TrieNode.mk cs e).containsW (c :: w) = false := by
  rw [containsW, children_mk, hl]

theorem insertW_nil (cs : List (Char × TrieNode)) (e : Bool) :
    (TrieNode.mk cs e).insertW [] = .mk cs true := rfl

theorem insertW_cons_some {cs : List (Char × TrieNode)} {e : Bool} {c : Char}
    {child : TrieNode} (hl : lookupChild c cs = some child) (w : Str) :
    (TrieNode.mk cs e).insertW (c :: w) =
      .mk (updateChild c (child.insertW w) cs) e := by
  rw [insertW, hl]

theorem insertW_cons_none {cs : List (Char × TrieNode)} {e : Bool} {c : Char}
    (hl : lookupChild c cs = none) (w : Str) :
    (TrieNode.mk cs e).insertW (c :: w) =
      .mk (cs ++ [(c, TrieNode.empty.insertW w)]) e := by
  rw [insertW, hl]

@[simp] theorem containsW_empty : ∀ w : Str, TrieNode.empty.containsW w = false
  | [] => rfl
  | c :: w => @containsW_cons_none [] false c rfl w

/-- Inserting a word makes exactly that word a member of the trie, and
keeps every other membership unchanged. -/
theorem containsW_insertW : ∀ (w : Str) (n : TrieNode) (v : Str),
    (n.insertW w).containsW v = true ↔ (n.containsW v = true ∨ v = w) := by
  intro w
  induction w with
  | nil =>
      intro n v
      obtain ⟨cs, e⟩ := n
      match v with
      | [] => simp [insertW_nil]
      | c :: vs =>
          rw [insertW_nil]
          cases hl : lookupChild c cs with
          | some child => simp [containsW_cons_some hl]
          | none => simp [containsW_cons_none hl]
  | cons c w ih =>
      intro n v
      obtain ⟨cs, e⟩ := n
      cases hl : lookupChild c cs with
      | some child =>
          rw [insertW_cons_some hl]
          match v with
          | [] => simp
          | d :: vs =>
              by_cases hdc : d = c
              · subst hdc
                have hs : lookupChild d (updateChild d (child.insertW w) cs) =
                    some (child.insertW w) :=
                  lookupChild_updateChild_self d _ cs (by rw [hl]; rfl)
                rw [containsW_cons_some hs, containsW_cons_some hl, ih child vs]
                simp
              · have hs : lookupChild d (updateChild c (child.insertW w) cs) =
                    lookupChild d cs :=
                  lookupChild_updateChild_ne hdc _ cs
                cases hd : lookupChild d cs with
                | some other =>
                    rw [containsW_cons_some (hs.trans hd),
                      containsW_cons_some hd]
                    simp [hdc]
                | none =>
                    rw [containsW_cons_none (hs.trans hd),
                      containsW_cons_none hd]
                    simp [hdc]
      | none =>
          rw [insertW_cons_none hl]
          match v with
          | [] => simp
          | d :: vs =>
              by_cases hdc : d = c
              · subst hdc
                have hs : lookupChild d (cs ++ [(d, TrieNode.empty.insertW w)]) =
                    some (TrieNode.empty.insertW w) :=
                  lookupChild_append_self d _ cs hl
                rw [containsW_cons_some hs, containsW_cons_none hl,
                  ih TrieNode.empty vs]
                simp
              · have hs : lookupChild d (cs ++ [(c, TrieNode.empty.insertW w)]) =
                    lookupChild d cs :=
                  lookupChild_append_ne hdc _ cs
                cases hd : lookupChild d cs with
                | some other =>
                    rw [containsW_cons_some (hs.trans hd),
                      containsW_cons_some hd]
                    simp [hdc]
                | none =>
                    rw [containsW_cons_none (hs.trans hd),
                      containsW_cons_none hd]
                    simp [hdc]

/-- The source's `Trie.insert` is idempotent: inserting the same word a
second time leaves the trie unchanged. -/
theorem insertW_idem : ∀ (w : Str) (n : TrieNode),
    (n.insertW w).insertW w = n.insertW w := by
  intro w
  induction w with
  | nil =>
      intro n
      obtain ⟨cs, e⟩ := n
      rfl
  | cons c w ih =>
      intro n
      obtain ⟨cs, e⟩ := n
      cases hl : lookupChild c cs with
      | some child =>
          have hs : lookupChild c (updateChild c (child.insertW w) cs) =
              some (child.insertW w) :=
            lookupChild_updateChild_self c _ cs (by rw [hl]; rfl)
          rw [insertW_cons_some hl, insertW_cons_some hs, ih child,
            updateChild_of_lookupChild_eq c _ _ hs]
      | none =>
          have hs : lookupChild c (cs ++ [(c, TrieNode.empty.insertW w)]) =
              some (TrieNode.empty.insertW w) :=
            lookupChild_append_self c _ cs hl
          rw [insertW_cons_none hl, insertW_cons_some hs, ih TrieNode.empty,
            updateChild_of_lookupChild_eq c _ _ hs]

/-- The root node of the trie (`Trie()`) is well formed. -/
theorem WF_empty : TrieNode.empty.WF :=
  WF.mk [] false List.nodup_nil (by simp)

/-- `insertW` preserves well-formedness of the children maps. -/
theorem WF_insertW : ∀ (w : Str) (n : TrieNode), n.WF → (n.insertW w).WF := by
  intro w
  induction w with
  | nil =>
      intro n hw
      obtain ⟨cs, e⟩ := n
      cases hw with
      | mk _ _ hnd hch => exact WF.mk cs true hnd hch
  | cons c w ih =>
      intro n hw
      obtain ⟨cs, e⟩ := n
      cases hw with
      | mk _ _ hnd hch =>
          cases hl : lookupChild c cs with
          | some child =>
              rw [insertW_cons_some hl]
              refine WF.mk _ e (by rw [updateChild_keys]; exact hnd) ?_
              intro p hp
              rcases mem_updateChild cs hp with h | h
              · rw [h]
                exact ih child (hch (c, child) (mem_of_lookupChild cs hl))
              · exact hch p h
          | none =>
              rw [insertW_cons_none hl]
              refine WF.mk _ e ?_ ?_
              · rw [List.map_append]
                simp only [List.map_cons, List.map_nil]
                rw [List.nodup_append]
                refine ⟨hnd, List.nodup_singleton c, ?_⟩
                intro a ha hb
                simp only [List.mem_singleton] at hb
                rw [hb] at ha
                exact (lookupChild_eq_none_iff c cs).mp hl ha
              · intro p hp
                rcases List.mem_append.mp hp with h | h
                · exact hch p h
                · simp only [List.mem_singleton] at h
                  rw [h]
                  exact ih TrieNode.empty WF_empty

end TrieNode

theorem lookupChild_mem_keys {c : Char} {t : TrieNode}
    {cs : List (Char × TrieNode)} (h : lookupChild c cs = some t) :
    c ∈ cs.map Prod.fst :=
  List.mem_map.mpr ⟨(c, t), mem_of_lookupChild cs h, rfl⟩

theorem mem_findWordsOver_extend :
    ∀ (cs : List (Char × TrieNode)),
      (∀ p ∈ cs, ∀ (pfx x : Str), x ∈ findWords p.2 pfx → ∃ s, x = pfx ++ s) →
      ∀ (pfx x : Str), x ∈ findWordsOver cs pfx →
        ∃ c s, c ∈ cs.map Prod.fst ∧ x = pfx ++ c :: s := by
  intro cs
  induction cs with
  | nil =>
      intro _ pfx x h
      simp [findWordsOver] at h
  | cons q rest ih =>
      intro hall pfx x h
      obtain ⟨c0, t0⟩ := q
      rw [findWordsOver] at h
      rcases List.mem_append.mp h with h | h
      · obtain ⟨s, hs⟩ := hall (c0, t0) (List.mem_cons_self _ _) (pfx ++ [c0]) x h
        exact ⟨c0, s, by simp, by simp [hs]⟩
      · obtain ⟨c, s, hc, hx⟩ :=
          ih (fun p hp => hall p (List.mem_cons_of_mem _ hp)) pfx x h
        exact ⟨c, s, by simp [hc], hx⟩

theorem mem_findWords_extend :
    ∀ (n : TrieNode) (pfx x : Str), x ∈ findWords n pfx → ∃ s, x = pfx ++ s := by
  intro n
  induction n using TrieNode.inductionOn with
  | h cs e ih =>
      intro pfx x hx
      rw [findWords] at hx
      rcases List.mem_append.mp hx with h | h
      · cases e with
        | false => simp at h
        | true =>
            simp only [if_true, List.mem_singleton] at h
            exact ⟨[], by simp [h]⟩
      · obtain ⟨c, s, _, hx⟩ := mem_findWordsOver_extend cs ih pfx x h
        exact ⟨c :: s, hx⟩

theorem mem_findWordsOver_iff :
    ∀ (cs : List (Char × TrieNode)),
      (∀ p ∈ cs, p.2.WF → ∀ (pfx x : Str),
        x ∈ findWords p.2 pfx ↔ ∃ s, x = pfx ++ s ∧ p.2.containsW s = true) →
      (cs.map Prod.fst).Nodup →
      (∀ p ∈ cs, p.2.WF) →
      ∀ (pfx x : Str),
        x ∈ findWordsOver cs pfx ↔
          ∃ c s child, lookupChild c cs = some child ∧
            x = pfx ++ c :: s ∧ child.containsW s = true := by
  intro cs
  induction cs with
  | nil =>
      intro _ _ _ pfx x
      simp [findWordsOver, lookupChild]
  | cons q rest ih =>
      intro hall hnd hwf pfx x
      obtain ⟨c0, t0⟩ := q
      rw [findWordsOver]
      have hhd : ∀ p ∈ rest, p.2.WF → ∀ (pfx x : Str),
          x ∈ findWords p.2 pfx ↔ ∃ s, x = pfx ++ s ∧ p.2.containsW s = true :=
        fun p hp => hall p (List.mem_cons_of_mem _ hp)
      have hwr : ∀ p ∈ rest, p.2.WF := fun p hp => hwf p (List.mem_cons_of_mem _ hp)
      have hnr : (rest.map Prod.fst).Nodup := by
        simp only [List.map_cons, List.nodup_cons] at hnd
        exact hnd.2
      have hc0 : c0 ∉ rest.map Prod.fst := by
        simp only [List.map_cons, List.nodup_cons] at hnd
        exact hnd.1
      rw [List.mem_append,
        hall (c0, t0) (List.mem_cons_self _ _) (hwf _ (List.mem_cons_self _ _))
          (pfx ++ [c0]) x,
        ih hhd hnr hwr pfx x]
      constructor
      · rintro (⟨s, hx, hcont⟩ | ⟨c, s, child, hl, hx, hcont⟩)
        · exact ⟨c0, s, t0, by rw [lookupChild, if_pos rfl],
            by simp [hx, List.append_assoc], hcont⟩
        · have hne : ¬ c0 = c := fun h => hc0 (h ▸ lookupChild_mem_keys hl)
          exact ⟨c, s, child, by rw [lookupChild, if_neg hne]; exact hl, hx, hcont⟩
      · rintro ⟨c, s, child, hl, hx, hcont⟩
        rw [lookupChild] at hl
        by_cases hce : c0 = c
        · rw [if_pos hce] at hl
          have ht : t0 = child := by injection hl
          subst hce
          subst ht
          exact Or.inl ⟨s, by simp [hx, List.append_assoc], hcont⟩
        · rw [if_neg hce] at hl
          exact Or.inr ⟨c, s, child, hl, hx, hcont⟩

theorem mem_findWords_iff :
    ∀ (n : TrieNode), n.WF → ∀ (pfx x : Str),
      x ∈ findWords n pfx ↔ ∃ s, x = pfx ++ s ∧ n.containsW s = true := by
  intro n
  induction n using TrieNode.inductionOn with
  | h cs e ih =>
      intro hw pfx x
      have hnd : (cs.map Prod.fst).Nodup := by
        cases hw with
        | mk _ _ hnd _ => exact hnd
      have hch : ∀ p ∈ cs, p.2.WF := by
        cases hw with
        | mk _ _ _ hch => exact hch
      rw [findWords, List.mem_append,
        mem_findWordsOver_iff cs (fun p hp _ => ih p hp (hch p hp)) hnd hch pfx x]
      constructor
      · rintro (h | ⟨c, s, child, hl, hx, hcont⟩)
        · cases e with
          | false => simp at h
          | true =>
              simp only [if_true, List.mem_singleton] at h
              exact ⟨[], by simp [h], by simp⟩
        · exact ⟨c :: s, hx, by rw [TrieNode.containsW_cons_some hl]; exact hcont⟩
      · rintro ⟨s, hx, hcont⟩
        match s, hcont with
        | [], hcont =>
            have he : e = true := by simpa using hcont
            subst he
            exact Or.inl (by simp [hx])
        | c :: s, hcont =>
            cases hl : lookupChild c cs with
            | none =>
                rw [TrieNode.containsW_cons_none hl] at hcont
                cases hcont
            | some child =>
                rw [TrieNode.containsW_cons_some hl] at hcont
                exact Or.inr ⟨c, s, child, hl, hx, hcont⟩

theorem nodup_findWordsOver :
    ∀ (cs : List (Char × TrieNode)),
      (∀ p ∈ cs, ∀ pfx : Str, (findWords p.2 pfx).Nodup) →
      (cs.map Prod.fst).Nodup →
      ∀ pfx : Str, (findWordsOver cs pfx).Nodup := by
  intro cs
  induction cs with
  | nil =>
      intro _ _ pfx
      simp [findWordsOver]
  | cons q rest ih =>
      intro hall hnd pfx
      obtain ⟨c0, t0⟩ := q
      simp only [List.map_cons, List.nodup_cons] at hnd
      rw [findWordsOver]
      apply List.Nodup.append
      · exact hall (c0, t0) (List.mem_cons_self _ _) (pfx ++ [c0])
      · exact ih (fun p hp => hall p (List.mem_cons_of_mem _ hp)) hnd.2 pfx
      · intro x hx1 hx2
        obtain ⟨s, hs⟩ := mem_findWords_extend t0 (pfx ++ [c0]) x hx1
        obtain ⟨c, s', hc, hx⟩ :=
          mem_findWordsOver_extend rest
            (fun p _ pfx x => mem_findWords_extend p.2 pfx x) pfx x hx2
        rw [hs, List.append_assoc] at hx
        have hcc : c0 = c := (List.cons.injEq _ _ _ _ ▸ List.append_cancel_left hx).1
        exact hnd.1 (hcc ▸ hc)

theorem nodup_findWords :
    ∀ (n : TrieNode), n.WF → ∀ pfx : Str, (findWords n pfx).Nodup := by
  intro n
  induction n using TrieNode.inductionOn with
  | h cs e ih =>
      intro hw pfx
      have hnd : (cs.map Prod.fst).Nodup := by
        cases hw with
        | mk _ _ hnd _ => exact hnd
      have hch : ∀ p ∈ cs, p.2.WF := by
        cases hw with
        | mk _ _ _ hch => exact hch
      rw [findWords]
      apply List.Nodup.append
      · cases e <;> simp
      · exact nodup_findWordsOver cs (fun p hp => ih p hp (hch p hp)) hnd pfx
      · intro x hx1 hx2
        cases e with
        | false => simp at hx1
        | true =>
            simp only [if_true, List.mem_singleton] at hx1
            obtain ⟨c, s, _, hx⟩ :=
              mem_findWordsOver_extend cs
                (fun p _ pfx x => mem_findWords_extend p.2 pfx x) pfx x hx2
            rw [hx1] at hx
            exact absurd (congrArg List.length hx) (by simp)

namespace TrieNode

@[simp] theorem walk_nil (n : TrieNode) : n.walk [] = some n := rfl

theorem walk_cons_some {n child : TrieNode} {c : Char}
    (hl : lookupChild c n.children = some child) (w : Str) :
    n.walk (c :: w) = child.walk w := by
  rw [walk, hl]

theorem walk_cons_none {n : TrieNode} {c : Char}
    (hl : lookupChild c n.children = none) (w : Str) :
    n.walk (c :: w) = none := by
  rw [walk, hl]

theorem walk_some_containsW :
    ∀ (q : Str) (n m : TrieNode), n.walk q = some m →
      ∀ s : Str, n.containsW (q ++ s) = m.containsW s := by
  intro q
  induction q with
  | nil =>
      intro n m h s
      rw [walk_nil] at h
      obtain rfl : n = m := by injection h
      rfl
  | cons c q ih =>
      intro n m h s
      cases hl : lookupChild c n.children with
      | some child =>
          rw [walk_cons_some hl] at h
          obtain ⟨cs, e⟩ := n
          rw [List.cons_append, containsW_cons_some (by simpa using hl),
            ih child m h s]
      | none =>
          rw [walk_cons_none hl] at h
          cases h

theorem walk_none_containsW :
    ∀ (q : Str) (n : TrieNode), n.walk q = none →
      ∀ s : Str, n.containsW (q ++ s) = false := by
  intro q
  induction q with
  | nil =>
      intro n h
      rw [walk_nil] at h
      cases h
  | cons c q ih =>
      intro n h s
      cases hl : lookupChild c n.children with
      | some child =>
          rw [walk_cons_some hl] at h
          obtain ⟨cs, e⟩ := n
          rw [List.cons_append, containsW_cons_some (by simpa using hl),
            ih child h s]
      | none =>
          obtain ⟨cs, e⟩ := n
          rw [List.cons_append, containsW_cons_none (by simpa using hl)]

theorem WF_walk :
    ∀ (q : Str) (n m : TrieNode), n.WF → n.walk q = some m → m.WF := by
  intro q
  induction q with
  | nil =>
      intro n m hw h
      rw [walk_nil] at h
      obtain rfl : n = m := by injection h
      exact hw
  | cons c q ih =>
      intro n m hw h
      cases hl : lookupChild c n.children with
      | some child =>
          rw [walk_cons_some hl] at h
          refine ih child m ?_ h
          obtain ⟨cs, e⟩ := n
          cases hw with
          | mk _ _ _ hch => exact hch (c, child) (mem_of_lookupChild cs (by simpa using hl))
      | none =>
          rw [walk_cons_none hl] at h
          cases h

/-- Full characterisation of `Trie.search`: `x` is returned for `pfx`
exactly when `x` extends the lower-cased prefix and is a stored word. -/
theorem mem_search_iff (n : TrieNode) (hw : n.WF) (pfx x : Str) :
    x ∈ n.search pfx ↔
      ∃ s, x = lower pfx ++ s ∧ n.containsW (lower pfx ++ s) = true := by
  rw [search]
  cases hq : n.walk (lower pfx) with
  | none =>
      simp only [List.not_mem_nil, false_iff]
      rintro ⟨s, _, hc⟩
      rw [walk_none_containsW (lower pfx) n hq s] at hc
      cases hc
  | some m =>
      rw [mem_findWords_iff m (WF_walk (lower pfx) n m hw hq) (lower pfx) x]
      constructor
      · rintro ⟨s, hx, hc⟩
        exact ⟨s, hx, by rw [walk_some_containsW (lower pfx) n m hq s]; exact hc⟩
      · rintro ⟨s, hx, hc⟩
        rw [walk_some_containsW (lower pfx) n m hq s] at hc
        exact ⟨s, hx, hc⟩

/-- The search results of a well-formed trie contain no duplicates. -/
theorem nodup_search (n : TrieNode) (hw : n.WF) (pfx : Str) :
    (n.search pfx).Nodup := by
  rw [search]
  cases hq : n.walk (lower pfx) with
  | none => exact List.nodup_nil
  | some m => exact nodup_findWords m (WF_walk (lower pfx) n m hw hq) (lower pfx)

theorem WF_insert (n : TrieNode) (w : Str) (hw : n.WF) : (n.insert w).WF :=
  WF_insertW (lower w) n hw

theorem WF_insertAll : ∀ (ws : List Str) (n : TrieNode), n.WF → (n.insertAll ws).WF := by
  intro ws
  induction ws with
  | nil => intro n hw; exact hw
  | cons w ws ih =>
      intro n hw
      exact ih (n.insert w) (WF_insert n w hw)

theorem containsW_insertAll :
    ∀ (ws : List Str) (n : TrieNode) (v : Str),
      ((n.insertAll ws).containsW v = true) ↔
        (n.containsW v = true ∨ ∃ w ∈ ws, v = lower w) := by
  intro ws
  induction ws with
  | nil =>
      intro n v
      simp [insertAll]
  | cons w ws ih =>
      intro n v
      have hstep : (n.insertAll (w :: ws)) = (n.insert w).insertAll ws := rfl
      rw [hstep, ih (n.insert w) v, TrieNode.insert,
        containsW_insertW (lower w) n v]
      constructor
      · rintro ((h | h) | ⟨w', hw', h⟩)
        · exact Or.inl h
        · exact Or.inr ⟨w, List.mem_cons_self _ _, h⟩
        · exact Or.inr ⟨w', List.mem_cons_of_mem _ hw', h⟩
      · rintro (h | ⟨w', hw', h⟩)
        · exact Or.inl (Or.inl h)
        · rcases List.mem_cons.mp hw' with h2 | h2
          · exact Or.inl (Or.inr (h2 ▸ h))
          · exact Or.inr ⟨w', h2, h⟩

end TrieNode

/-! ## Lower-casing facts -/

theorem char_ofNatAux_toNat (n : Nat) (h : n.isValidChar) :
    (Char.ofNatAux n h).toNat = n := rfl

theorem char_toLower_toNat_of_upper (c : Char) (h : c.toNat ≥ 65 ∧ c.toNat ≤ 90) :
    (Char.toLower c).toNat = c.toNat + 32 := by
  have hv : (c.toNat + 32).isValidChar := Or.inl (by omega)
  simp only [Char.toLower, if_pos h, Char.ofNat, dif_pos hv, char_ofNatAux_toNat]

theorem char_toLower_idem (c : Char) :
    Char.toLower (Char.toLower c) = Char.toLower c := by
  by_cases h : c.toNat ≥ 65 ∧ c.toNat ≤ 90
  · have ht := char_toLower_toNat_of_upper c h
    conv_lhs => rw [Char.toLower]
    rw [if_neg (by omega)]
  · conv_lhs => rw [Char.toLower]
    have he : Char.toLower c = c := by rw [Char.toLower, if_neg h]
    rw [he, if_neg h]

/-- Lower-casing a Python string is idempotent. -/
theorem lower_idem (s : Str) : lower (lower s) = lower s := by
  simp only [lower, List.map_map]
  exact List.map_congr_left fun c _ => char_toLower_idem c

/-! ## Composition-layer lemmas -/

/-- The canonical route key built by `addLocations`. -/
def routeKey (p : Str × Str) : Str := p.1 ++ str " -> " ++ p.2

/-- The trie component of the graph ignores the priority draws: it is
the trie obtained by inserting the canonical keys in order. -/
theorem trie_addAll :
    ∀ (es : List ((Str × Str) × Nat)) (g : LocationGraph),
      (g.addAll es).trie = g.trie.insertAll (es.map fun e => routeKey e.1) := by
  intro es
  induction es with
  | nil => intro g; rfl
  | cons e es ih =>
      intro g
      rw [List.map_cons]
      exact ih ((g.addLocations e.1 e.2).1)

/-- The locations list accumulates the canonical keys in order. -/
theorem locations_addAll :
    ∀ (es : List ((Str × Str) × Nat)) (g : LocationGraph),
      (g.addAll es).locations = g.locations ++ (es.map fun e => routeKey e.1) := by
  intro es
  induction es with
  | nil => intro g; simp [LocationGraph.addAll]
  | cons e es ih =>
      intro g
      rw [List.map_cons]
      have hstep : (g.addAll (e :: es)) = ((g.addLocations e.1 e.2).1).addAll es := rfl
      rw [hstep, ih]
      simp [LocationGraph.addLocations, routeKey]

/-- Soundness of `Trie.search` over a trie built by insertions: every
result extends the lower-cased prefix and is the lower-casing of an
inserted word. -/
theorem mem_search_insertAll {ws : List Str} {p x : Str}
    (h : x ∈ (TrieNode.empty.insertAll ws).search p) :
    (lower p) <+: x ∧ ∃ w ∈ ws, x = lower w := by
  have hwf := TrieNode.WF_insertAll ws TrieNode.empty TrieNode.WF_empty
  rw [TrieNode.mem_search_iff _ hwf p x] at h
  obtain ⟨s, hx, hc⟩ := h
  rw [TrieNode.containsW_insertAll ws TrieNode.empty (lower p ++ s)] at hc
  rcases hc with hc | ⟨w, hw, hv⟩
  · rw [TrieNode.containsW_empty] at hc
    cases hc
  · exact ⟨⟨s, hx.symm⟩, w, hw, hx.trans hv⟩

/-- Completeness of `Trie.search` over a trie built by insertions: the
lower-casing of any inserted word is returned for each of its
case-insensitive prefixes. -/
theorem lower_mem_search_insertAll {ws : List Str} {W p : Str}
    (hW : W ∈ ws) (hp : (lower p) <+: (lower W)) :
    lower W ∈ (TrieNode.empty.insertAll ws).search p := by
  have hwf := TrieNode.WF_insertAll ws TrieNode.empty TrieNode.WF_empty
  rw [TrieNode.mem_search_iff _ hwf p (lower W)]
  obtain ⟨s, hs⟩ := hp
  refine ⟨s, hs.symm, ?_⟩
  rw [hs, TrieNode.containsW_insertAll ws TrieNode.empty (lower W)]
  exact Or.inr ⟨W, hW, rfl⟩

/-! ## Claim theorems -/

/-- C1 counterexample: in the concrete scenario the canonical key
`"New York -> Boston"` is not among the autocomplete results for
`"new"` — the trie lower-cases on insertion, so only the lower-cased
forms are returned. -/
theorem C1_counterexample :
    (str "New York -> Boston") ∉
      (LocationGraph.empty.addAll
        [((str "New York", str "Boston"), 1),
         ((str "New Jersey", str "Miami"), 2),
         ((str "Newark", str "LA"), 3)]).autocomplete (str "new") := by
  decide

/-- C1 (amended): after inserting the three routes (with arbitrary
priority draws), `autocomplete("new")` returns exactly the lower-casings
of the three canonical keys (in insertion order), and
`autocomplete("newa")` returns only `"newark -> la"`. -/
theorem C1_concrete_scenario (p1 p2 p3 : Nat) :
    ((LocationGraph.empty.addAll
        [((str "New York", str "Boston"), p1),
         ((str "New Jersey", str "Miami"), p2),
         ((str "Newark", str "LA"), p3)]).autocomplete (str "new") =
      [str "new york -> boston", str "new jersey -> miami",
       str "newark -> la"]) ∧
    ((LocationGraph.empty.addAll
        [((str "New York", str "Boston"), p1),
         ((str "New Jersey", str "Miami"), p2),
         ((str "Newark", str "LA"), p3)]).autocomplete (str "newa") =
      [str "newark -> la"]) := by
  have h := trie_addAll
    [((str "New York", str "Boston"), p1),
     ((str "New Jersey", str "Miami"), p2),
     ((str "Newark", str "LA"), p3)] LocationGraph.empty
  constructor <;>
  · rw [LocationGraph.autocomplete, h]
    simp only [List.map_cons, List.map_nil]
    decide

/-- C2: for every treap and prefix, `Treap.searchPrefix` computes
exactly the recursion stated by the spec: append the node's key when it
starts with the prefix (literal check), then descend into exactly one
child — left when `prefix < key` lexicographically, right otherwise. -/
theorem C2_searchPrefix_recursion (t : Treap) (pfx : Str) :
    Treap.searchPrefix t pfx = Treap.searchPrefixSpec t pfx :=
  Treap.search_eq_spec t pfx

/-- C3: for every insertion sequence (arbitrary priority draws) into an
initially empty treap, the in-order traversal is non-decreasing;
equivalently the BST invariant holds (left subtree ≤ key ≤ right
subtree), and the insertion descent sends a key equal to the node's key
into the right branch. -/
theorem C3_bst_invariant (es : List (Str × Nat)) :
    ((Treap.insertList Treap.leaf es).inorder.Sorted (· ≤ ·)) ∧
    (Treap.insertList Treap.leaf es).IsBST ∧
    (∀ (k : Str) (p : Nat) (l r : Treap) (loc : Str) (prio : Nat),
      ¬ loc < k →
      (Treap.node k p l r).insert loc prio =
        (if (r.insert loc prio).priority > p then
          (Treap.node k p l (r.insert loc prio)).rotateLeft
         else Treap.node k p l (r.insert loc prio))) := by
  have hb := Treap.IsBST_insertList es Treap.leaf trivial
  refine ⟨Treap.IsBST_sorted _ hb, hb, ?_⟩
  intro k p l r loc prio hlt
  rw [Treap.insert, if_neg hlt]

/-- C3 witness: inserting the duplicate key `"a"` into the singleton
treap `"a"` descends into the right branch. -/
theorem C3_witness :
    (¬ (str "a") < (str "a")) ∧
    (Treap.node (str "a") 1 .leaf .leaf).insert (str "a") 2 =
      (if (Treap.leaf.insert (str "a") 2).priority > 1 then
        (Treap.node (str "a") 1 .leaf (Treap.leaf.insert (str "a") 2)).rotateLeft
       else Treap.node (str "a") 1 .leaf (Treap.leaf.insert (str "a") 2)) :=
  ⟨by decide,
   (C3_bst_invariant []).2.2 (str "a") 1 .leaf .leaf (str "a") 2 (by decide)⟩

/-- C4: for every insertion sequence (arbitrary priority draws) into an
initially empty treap, the resulting tree is max-heap ordered on
priorities. -/
theorem C4_heap_invariant (es : List (Str × Nat)) :
    (Treap.insertList Treap.leaf es).IsHeap :=
  Treap.IsHeap_insertList es Treap.leaf trivial

/-- C5 counterexample: `addLocations` has no `return` statement, so it
does not return the canonical key to the caller. -/
theorem C5_counterexample :
    (LocationGraph.empty.addLocations (str "A", str "B") 1).2 ≠
      some (str "A -> B") := by
  decide

/-- C5 (amended): for non-empty (after trimming) departure and arrival,
`addLocations` builds the canonical key `"{departure} -> {arrival}"`,
inserts it into the treap and the trie, and appends it to the route
list — but returns `None`, not the canonical key. -/
theorem C5_addLocations (g : LocationGraph) (dep arr : Str) (prio : Nat)
    (h1 : strip dep ≠ []) (h2 : strip arr ≠ []) :
    g.addLocations (dep, arr) prio =
      ({ locations := g.locations ++ [dep ++ str " -> " ++ arr],
         treap := Treap.insertNode g.treap (dep ++ str " -> " ++ arr) prio,
         trie := TrieNode.insert g.trie (dep ++ str " -> " ++ arr) }, none) :=
  rfl

/-- C5 witness: the amended statement at `("A", "B")` on the empty
index. -/
theorem C5_witness :
    strip (str "A") ≠ [] ∧ strip (str "B") ≠ [] ∧
    LocationGraph.empty.addLocations (str "A", str "B") 1 =
      ({ locations := [str "A -> B"],
         treap := Treap.insertNode Treap.leaf (str "A -> B") 1,
         trie := TrieNode.insert (TrieNode.mk [] false) (str "A -> B") }, none) :=
  ⟨by decide, by decide,
   C5_addLocations LocationGraph.empty (str "A") (str "B") 1
     (by decide) (by decide)⟩

/-- C6 counterexample: the word `"A"` is inserted and `"A"` is a
case-insensitive prefix of it, yet `search("A")` does not contain `"A"`
(it returns the lower-cased `"a"`). -/
theorem C6_counterexample :
    (str "A") ∈ [str "A"] ∧ (lower (str "A")) <+: (lower (str "A")) ∧
    (str "A") ∉ (TrieNode.empty.insertAll [str "A"]).search (str "A") :=
  ⟨by decide, ⟨[], by simp⟩, by decide⟩

/-- C6 (amended): trie completeness up to lower-casing — for every
inserted word `W` and every `p` whose lower-casing is a prefix of `W`'s
lower-casing, `search(p)` contains the lower-casing of `W`. -/
theorem C6_trie_completeness (ws : List Str) (W p : Str) (hW : W ∈ ws)
    (hp : (lower p) <+: (lower W)) :
    lower W ∈ (TrieNode.empty.insertAll ws).search p :=
  lower_mem_search_insertAll hW hp

/-- C6 witness: the amended statement for the word `"Ab"` and prefix
`"A"`. -/
theorem C6_witness :
    (str "Ab") ∈ [str "Ab"] ∧ (lower (str "A")) <+: (lower (str "Ab")) ∧
    lower (str "Ab") ∈ (TrieNode.empty.insertAll [str "Ab"]).search (str "A") :=
  ⟨by decide, ⟨['b'], by decide⟩,
   C6_trie_completeness [str "Ab"] (str "Ab") (str "A") (by decide)
     ⟨['b'], by decide⟩⟩

/-- C7 counterexample: after inserting `"A"`, `search("a")` returns
`"a"`, which is not a word that was previously inserted (only `"A"`
was). -/
theorem C7_counterexample :
    ¬ (∀ x ∈ (TrieNode.empty.insertAll [str "A"]).search (str "a"),
        x ∈ [str "A"]) := by
  decide

/-- C7 (amended): trie soundness up to lower-casing — every string
returned by `search(p)` starts with the lower-casing of `p` and is the
lower-casing of a previously inserted word. -/
theorem C7_trie_soundness (ws : List Str) (p x : Str)
    (h : x ∈ (TrieNode.empty.insertAll ws).search p) :
    (lower p) <+: x ∧ ∃ w ∈ ws, x = lower w :=
  mem_search_insertAll h

/-- C7 witness: the amended statement for the result `"ab"` of
`search("a")` after inserting `"Ab"`. -/
theorem C7_witness :
    ((str "ab") ∈ (TrieNode.empty.insertAll [str "Ab"]).search (str "a")) ∧
    ((lower (str "a")) <+: (str "ab") ∧ ∃ w ∈ [str "Ab"], str "ab" = lower w) :=
  ⟨by decide, C7_trie_soundness [str "Ab"] (str "a") (str "ab") (by decide)⟩

/-- C8: inserting the same route a second time leaves autocomplete
results unchanged (even as sequences); inserting the same word twice
leaves the trie unchanged; and no string appears twice in a trie
enumeration. -/
theorem C8_idempotence (g : LocationGraph) (route : Str × Str)
    (prio1 prio2 : Nat) (n : TrieNode) (w p : Str) (ws : List Str) :
    (((g.addLocations route prio1).1.addLocations route prio2).1.autocomplete p =
      (g.addLocations route prio1).1.autocomplete p) ∧
    (TrieNode.insert (TrieNode.insert n w) w = TrieNode.insert n w) ∧
    (((TrieNode.empty.insertAll ws).insert w).search p).Nodup := by
  refine ⟨?_, TrieNode.insertW_idem (lower w) n,
    TrieNode.nodup_search _
      (TrieNode.WF_insert _ w
        (TrieNode.WF_insertAll ws _ TrieNode.WF_empty)) p⟩
  show (TrieNode.insert (TrieNode.insert g.trie (routeKey route))
          (routeKey route)).search p =
    (TrieNode.insert g.trie (routeKey route)).search p
  rw [TrieNode.insert, TrieNode.insert, TrieNode.insertW_idem]

/-- C9: queries that match nothing return an empty sequence (and, being
total functions, raise nothing): the treap search returns `[]` when no
stored key starts with the prefix and on the empty tree, and the trie
search returns `[]` as soon as a prefix character has no child and when
no stored entry matches. -/
theorem C9_empty_results (t : Treap) (n : TrieNode) (ws : List Str)
    (pfx : Str) :
    ((∀ k ∈ t.inorder, pfx.isPrefixOf k = false) →
      Treap.searchPrefix t pfx = []) ∧
    (TrieNode.walk n (lower pfx) = none → TrieNode.search n pfx = []) ∧
    ((∀ w ∈ ws, (lower pfx).isPrefixOf (lower w) = false) →
      TrieNode.search (TrieNode.empty.insertAll ws) pfx = []) ∧
    Treap.searchPrefix Treap.leaf pfx = [] := by
  refine ⟨fun h => Treap.search_eq_nil_of_no_match t pfx h, ?_, ?_, rfl⟩
  · intro h
    rw [TrieNode.search, h]
  · intro h
    by_contra hne
    obtain ⟨x, hx⟩ := List.exists_mem_of_ne_nil _ hne
    obtain ⟨hpfx, w, hw, hxw⟩ := mem_search_insertAll hx
    rw [hxw] at hpfx
    have h2 := List.isPrefixOf_iff_prefix.mpr hpfx
    rw [h w hw] at h2
    cases h2

/-- C9 witness: concrete no-match queries on a one-key treap, an empty
trie node, and a trie holding `"b"`. -/
theorem C9_witness :
    (∀ k ∈ (Treap.node (str "b") 1 .leaf .leaf).inorder,
      (str "a").isPrefixOf k = false) ∧
    Treap.searchPrefix (Treap.node (str "b") 1 .leaf .leaf) (str "a") = [] ∧
    TrieNode.search (TrieNode.mk [] false) (str "a") = [] ∧
    TrieNode.search (TrieNode.empty.insertAll [str "b"]) (str "a") = [] := by
  obtain ⟨h1, h2, h3, -⟩ := C9_empty_results
    (Treap.node (str "b") 1 .leaf .leaf) (TrieNode.mk [] false)
    [str "b"] (str "a")
  exact ⟨by decide, h1 (by decide), h2 rfl, h3 (by decide)⟩

/-- C10: every string returned by autocomplete is the lower-casing of
some inserted word, and an inserted word whose original casing differs
from its lower-casing is never returned. -/
theorem C10_lowercase_results (ws : List Str) (p : Str) :
    (∀ x ∈ (TrieNode.empty.insertAll ws).search p, ∃ w ∈ ws, x = lower w) ∧
    (∀ w ∈ ws, w ≠ lower w →
      w ∉ (TrieNode.empty.insertAll ws).search p) := by
  constructor
  · intro x hx
    exact (mem_search_insertAll hx).2
  · intro w hw hne hmem
    obtain ⟨-, w', hw', hxw⟩ := mem_search_insertAll hmem
    exact hne (by rw [hxw, lower_idem])

/-- C10 witness: after inserting `"Ab"`, the result `"ab"` of
`search("a")` is a lower-casing of an inserted word, and the original
casing `"Ab"` is not returned. -/
theorem C10_witness :
    (∃ w ∈ [str "Ab"], (str "ab") = lower w) ∧
    (str "Ab") ∉ (TrieNode.empty.insertAll [str "Ab"]).search (str "a") :=
  ⟨(C10_lowercase_results [str "Ab"] (str "a")).1 (str "ab") (by decide),
   (C10_lowercase_results [str "Ab"] (str "a")).2 (str "Ab") (by decide)
     (by decide)⟩
